import Mathlib

/-!
Verification of the backtracking regex matcher in `src/main.py` (class
`RegexEngine`).  The Python code is a generator-based recursive matcher over a
mutable capture table.  We embed it shallowly:

* patterns and inputs are `List Char` (Python strings, consumed suffix-wise);
* the capture table `self.captures` is a `Captures` value threaded explicitly;
* a Python generator consumed by a `for` loop is modelled in
  continuation-passing style: `matchInner input pattern ctr caps k` runs the
  generator to exhaustion, invoking the consumer `k` at each `yield`
  (`k` receives the yielded `(match_length, group_counter)` pair together with
  the capture table as it stands at the yield, and returns the updated table
  plus the list of top-level results its body produced);
* early termination by the driver (`next(gen)` / `any(...)`) is the `Res.stop`
  outcome, which aborts the whole generator stack, exactly as abandoning a
  Python generator does;
* Python exceptions (`RuntimeError` from the parser, `IndexError` from list
  indexing) are the `Res.err` outcome;
* recursion is bounded by explicit fuel; `Res.out` means the fuel ran out.
  A Python run that terminates is modelled by all sufficiently large fuels
  agreeing; a run that diverges (unbounded recursion) is modelled by every
  fuel returning `Res.out`.
-/

/-- The capture slot table: `self.captures`, a Python list whose entries are
`None` or a captured string. -/
abbrev Captures := List (Option (List Char))

/-- Python exceptions raised by the engine: the three `RuntimeError`s of the
parser and `IndexError` from list indexing. -/
inductive Err where
  | incompleteEscape
  | missingBracket
  | missingParen
  | indexErr
  deriving DecidableEq, Repr

/-- Outcome of running a generator to exhaustion against a consumer:
`out` = fuel exhausted (models non-termination), `err` = a Python exception
propagated, `stop` = the top-level consumer aborted the whole enumeration
(driver found its verdict), `done l c` = the generator was exhausted, the
consumer contributed the result list `l`, and the capture table ends as `c`. -/
inductive Res where
  | out
  | err (e : Err)
  | stop
  | done (yields : List Nat) (caps : Captures)
  deriving DecidableEq, Repr

/-- A consumer for one yielded `(match_length, group_counter)` pair; it also
receives the capture table at the moment of the yield. -/
abbrev Konsumer := Nat → Nat → Captures → Res

/-- Prepend earlier consumer contributions to a later outcome. -/
def Res.withMore (l : List Nat) : Res → Res
  | .done l2 c => .done (l ++ l2) c
  | r => r

/-- Python list read `l[i]` with an `int` index: negative indices count from
the end; out of range is `none` (an `IndexError`). -/
def pyGet (l : Captures) (i : Int) : Option (Option (List Char)) :=
  let j : Int := if i < 0 then i + l.length else i
  if 0 ≤ j ∧ j < (l.length : Int) then l.get? j.toNat else none

/-- Python list write `l[i] = v` for a nonnegative index (as used by
`self.captures[this_group_num - 1] = inp[:alt_len]`); out of range is `none`
(an `IndexError`). -/
def pySet (l : Captures) (i : Nat) (v : List Char) : Option Captures :=
  if i < l.length then some (l.set i (some v)) else none

/-- A parsed expression: the `(atom_type, atom, negated)` data of
`parse_single_atom` / `parse_expression`. -/
inductive Expr where
  | literal (c : Char)
  | escClass (c : Char)
  | charClass (body : List Char) (negated : Bool)
  | wildcard
  | backref (n : Nat)
  | group (alts : List (List Char))
  deriving DecidableEq, Repr

deriving instance DecidableEq for Except

/-- The scan in `match_class`: walk the class body, treating `x-y` (when at
least three characters remain) as an inclusive range and anything else as a
single character; true at the first hit. -/
def matchClassBody (c : Char) : List Char → Bool
  | a :: b :: d :: rest =>
    if b = '-' then
      if a ≤ c ∧ c ≤ d then true else matchClassBody c rest
    else
      if a = c then true else matchClassBody c (b :: d :: rest)
  | a :: rest => if a = c then true else matchClassBody c rest
  | [] => false

/-- The predicate factory `get_match_fn` (together with `is_digit`,
`is_alpha`, `is_underscore` and `match_class`).  `backref` and `group` are
dispatched before `get_match_fn` is consulted in the source, so their value
here is irrelevant. -/
def matchFn (e : Expr) (c : Char) : Bool :=
  match e with
  | .escClass ch => if ch = 'd' then c.isDigit else (c.isAlpha || c.isDigit || c = '_')
  | .literal ch => c = ch
  | .charClass body neg =>
    let m := matchClassBody c body
    if neg then !m else m
  | .wildcard => true
  | _ => false

/-- The `while p < len(pattern) and pattern[p] != "]"` scan of
`parse_single_atom`: returns the class body and the number of characters
consumed through the closing `]`, or `none` if no `]` occurs. -/
def classScan : List Char → Option (List Char × Nat)
  | [] => none
  | c :: rest =>
    if c = ']' then some ([], 1)
    else
      match classScan rest with
      | none => none
      | some (b, n) => some (c :: b, n + 1)

/-- `parse_single_atom`: one atom from the front of the pattern, returning the
expression and its consumed length.  An empty pattern is a Python
`IndexError`; the dangling-escape and unclosed-bracket `RuntimeError`s are the
corresponding `Err` values. -/
def parseSingleAtom (pattern : List Char) : Except Err (Expr × Nat) :=
  match pattern with
  | [] => .error .indexErr
  | '\\' :: rest =>
    match rest with
    | [] => .error .incompleteEscape
    | e :: _ =>
      if e.isDigit then .ok (.backref (e.toNat - '0'.toNat), 2)
      else if e = 'd' ∨ e = 'w' then .ok (.escClass e, 2)
      else .ok (.literal e, 2)
  | '[' :: rest =>
    match rest with
    | '^' :: r2 =>
      match classScan r2 with
      | none => .error .missingBracket
      | some (body, consumed) => .ok (.charClass body true, 2 + consumed)
    | _ =>
      match classScan rest with
      | none => .error .missingBracket
      | some (body, consumed) => .ok (.charClass body false, 1 + consumed)
  | '.' :: _ => .ok (.wildcard, 1)
  | c :: _ => .ok (.literal c, 1)

/-- The scan of `find_matching_paren` starting just after the opening `(`:
`i` is the current index in the full pattern, `opens` the depth counter;
returns the index of the matching `)`. -/
def findParenAux : List Char → Nat → Nat → Option Nat
  | [], _, _ => none
  | c :: rest, i, opens =>
    let o2 := if c = '(' then opens + 1 else if c = ')' then opens - 1 else opens
    if o2 = 0 then some i else findParenAux rest (i + 1) o2

/-- The scan of `split_alternatives`: split on `|` at parenthesis depth zero
(the depth is a Python `int` and may go negative). -/
def splitAltsAux : List Char → Int → List Char → List (List Char)
  | [], _, cur => [cur.reverse]
  | ch :: rest, lvl, cur =>
    if ch = '(' then splitAltsAux rest (lvl + 1) (ch :: cur)
    else if ch = ')' then splitAltsAux rest (lvl - 1) (ch :: cur)
    else if ch = '|' ∧ lvl = 0 then cur.reverse :: splitAltsAux rest lvl []
    else splitAltsAux rest lvl (ch :: cur)

/-- `split_alternatives`. -/
def splitAlternatives (content : List Char) : List (List Char) :=
  splitAltsAux content 0 []

/-- `parse_expression`: a group (via `find_matching_paren` and
`split_alternatives`) or a single atom. -/
def parseExpression (pattern : List Char) : Except Err (Expr × Nat) :=
  match pattern with
  | '(' :: rest =>
    match findParenAux rest 1 1 with
    | none => .error .missingParen
    | some j => .ok (.group (splitAlternatives ((pattern.take j).drop 1)), j + 1)
  | _ => parseSingleAtom pattern

/-- The greedy scan `while reps < len(input) and match_fn(input[reps])`,
phrased on the remaining suffix: length of the maximal matching run. -/
def repsScan (fn : Char → Bool) : List Char → Nat
  | [] => 0
  | c :: rest => if fn c then 1 + repsScan fn rest else 0

/-- Python `range(n, 0, -1)` as a list: `[n, n-1, ..., 1]`. -/
def downTo1 : Nat → List Nat
  | 0 => []
  | n + 1 => (n + 1) :: downTo1 n

/-- Python `range(n, -1, -1)` as a list: `[n, n-1, ..., 0]`. -/
def downFrom (n : Nat) : List Nat := downTo1 n ++ [0]

/-- Argument of the single structurally recursive runner `run`.  The two
generators of the source that recurse through their own consumers —
`match_inner` and `match_plus_group` — are the two call shapes; the other two
loops (`match_group_content_once` over alternatives and the `for curr_reps`
loop of the quantified-atom cases) are the plain list folds `resForSnap` and
`resForReps` below and do not need fuel of their own. -/
inductive Call where
  | inner (input pattern : List Char) (ctr : Nat) (caps : Captures) (k : Konsumer)
  | plusGroup (alts : List (List Char)) (thisNum : Nat) (inp : List Char)
      (grpCtr : Nat) (caps : Captures) (k : Konsumer)

/-- The alternative loop of `match_group_content_once`: run `step` on each
alternative from the *same* snapshot `caps`, restoring the snapshot after each
alternative is exhausted (the `self.captures = captures_before_alt` line). -/
def resForSnap (step : List Char → Captures → Res) :
    List (List Char) → Captures → Res
  | [], caps => .done [] caps
  | alt :: alts2, caps =>
    match step alt caps with
    | .done l _ => Res.withMore l (resForSnap step alts2 caps)
    | r => r

/-- The backtracking loop `for curr_reps in range(...)` of the `+`/`*` atom
cases: run `step` on each repetition count in order, threading the capture
table from one iteration to the next (the table is a mutable field in the
source, so consumer writes persist across iterations). -/
def resForReps (step : Nat → Captures → Res) : List Nat → Captures → Res
  | [], caps => .done [] caps
  | k2 :: ks2, caps =>
    match step k2 caps with
    | .done l c => Res.withMore l (resForReps step ks2 c)
    | r => r

/-- The recursive matcher, structurally recursive on the fuel so that it
evaluates by kernel reduction.  `Call.inner` is
`match_inner(input_line, pattern, group_counter)` run to exhaustion against
the consumer `k`; each branch mirrors the Python dispatch: empty pattern,
group (no quantifier / `?` / `+` / anything else falls through with no
yields), backreference (a trailing quantifier is consumed but never
consulted), and predicate atoms with their four quantifier cases.
`Call.plusGroup` is `match_plus_group(inp, grp_counter)`: match the group
content once; first recurse greedily on the remaining input (snapshotting the
captures just after the single match and restoring them before the
terminating yield), then yield the single match alone. -/
def run : Nat → Call → Res
  | 0, _ => .out
  | f + 1, .inner input pattern ctr caps k =>
    match pattern with
    | [] => k 0 ctr caps
    | _ =>
      match parseExpression pattern with
      | .error e => .err e
      | .ok (expr, exprLen) =>
        let quant : Option Char :=
          match (pattern.drop exprLen).head? with
          | some c => if c = '+' ∨ c = '?' ∨ c = '*' then some c else none
          | none => none
        let rest := pattern.drop (exprLen + (if quant.isSome then 1 else 0))
        match expr with
        | .group alts =>
          let thisNum := ctr + 1
          match quant with
          | none =>
            resForSnap (fun alt caps2 =>
              run f (.inner input alt thisNum caps2 (fun altLen altCtr caps3 =>
                match pySet caps3 (thisNum - 1) (input.take altLen) with
                | none => .err .indexErr
                | some caps4 =>
                  run f (.inner (input.drop altLen) rest altCtr caps4
                    (fun rLen rCtr c2 => k (altLen + rLen) rCtr c2))))) alts caps
          | some '?' =>
            match resForSnap (fun alt caps2 =>
                run f (.inner input alt thisNum caps2 (fun altLen altCtr caps3 =>
                  match pySet caps3 (thisNum - 1) (input.take altLen) with
                  | none => .err .indexErr
                  | some caps4 =>
                    run f (.inner (input.drop altLen) rest altCtr caps4
                      (fun rLen rCtr c2 => k (altLen + rLen) rCtr c2))))) alts caps with
            | .done l c => Res.withMore l (run f (.inner input rest ctr c k))
            | r => r
          | some '+' =>
            run f (.plusGroup alts thisNum input thisNum caps
              (fun repsLen repsCtr caps2 =>
                run f (.inner (input.drop repsLen) rest repsCtr caps2
                  (fun rLen rCtr c2 => k (repsLen + rLen) rCtr c2))))
          | some _ => .done [] caps
        | .backref n =>
          if caps.length < n then .done [] caps
          else
            match pyGet caps ((n : Int) - 1) with
            | none => .err .indexErr
            | some none => .done [] caps
            | some (some s) =>
              if s.isPrefixOf input then
                run f (.inner (input.drop s.length) rest ctr caps
                  (fun rLen rCtr c2 => k (s.length + rLen) rCtr c2))
              else .done [] caps
        | _ =>
          let fn := matchFn expr
          match quant with
          | none =>
            match input with
            | [] => .done [] caps
            | c :: inp2 =>
              if fn c then
                run f (.inner inp2 rest ctr caps
                  (fun rLen rCtr c2 => k (1 + rLen) rCtr c2))
              else .done [] caps
          | some '+' =>
            match input with
            | [] => .done [] caps
            | c :: inp2 =>
              if fn c then
                resForReps (fun k2 caps2 =>
                    run f (.inner (input.drop k2) rest ctr caps2
                      (fun rLen rCtr c2 => k (k2 + rLen) rCtr c2)))
                  (downTo1 (1 + repsScan fn inp2)) caps
              else .done [] caps
          | some '?' =>
            match
              (match input with
               | [] => Res.done [] caps
               | c :: inp2 =>
                 if fn c then
                   run f (.inner inp2 rest ctr caps
                     (fun rLen rCtr c2 => k (1 + rLen) rCtr c2))
                 else Res.done [] caps) with
            | .done l c => Res.withMore l (run f (.inner input rest ctr c k))
            | r => r
          | some _ =>
            resForReps (fun k2 caps2 =>
                run f (.inner (input.drop k2) rest ctr caps2
                  (fun rLen rCtr c2 => k (k2 + rLen) rCtr c2)))
              (downFrom (repsScan fn input)) caps
  | f + 1, .plusGroup alts thisNum inp grpCtr caps k =>
    resForSnap (fun alt caps2 =>
      run f (.inner inp alt grpCtr caps2 (fun altLen altCtr caps3 =>
        match pySet caps3 (thisNum - 1) (inp.take altLen) with
        | none => .err .indexErr
        | some caps4 =>
          match run f (.plusGroup alts thisNum (inp.drop altLen) grpCtr caps4
              (fun rl rc c2 => k (altLen + rl) rc c2)) with
          | .done l _ => Res.withMore l (k altLen altCtr caps4)
          | r => r))) alts caps

/-- `match_inner` as a named entry point (a definitional wrapper of `run`). -/
def matchInner (fuel : Nat) (input pattern : List Char) (ctr : Nat)
    (caps : Captures) (k : Konsumer) : Res :=
  run fuel (.inner input pattern ctr caps k)

/-- `match_group_content_once(inp, grp_counter)`: for each alternative,
snapshot the captures, run the alternative, write slot `this_group_num - 1`
before every yield, and restore the snapshot when the alternative is
exhausted. -/
def matchGroupOnce (fuel : Nat) (alts : List (List Char)) (thisNum : Nat)
    (inp : List Char) (grpCtr : Nat) (caps : Captures) (k : Konsumer) : Res :=
  resForSnap (fun alt caps2 =>
    run fuel (.inner inp alt grpCtr caps2 (fun altLen altCtr caps3 =>
      match pySet caps3 (thisNum - 1) (inp.take altLen) with
      | none => .err .indexErr
      | some caps4 => k altLen altCtr caps4))) alts caps

/-- `match_plus_group(inp, grp_counter)` as a named entry point. -/
def matchPlusGroup (fuel : Nat) (alts : List (List Char)) (thisNum : Nat)
    (inp : List Char) (grpCtr : Nat) (caps : Captures) (k : Konsumer) : Res :=
  run fuel (.plusGroup alts thisNum inp grpCtr caps k)

/-- The `for curr_reps in range(...)` loop of the `+`/`*` atom cases as a
named entry point. -/
def matchRepsDown (fuel : Nat) (ks : List Nat) (input rest : List Char)
    (ctr : Nat) (caps : Captures) (k : Konsumer) : Res :=
  resForReps (fun k2 caps2 =>
      run fuel (.inner (input.drop k2) rest ctr caps2
        (fun rLen rCtr c2 => k (k2 + rLen) rCtr c2))) ks caps



/-- `strip_anchors`: anchor flags from the pattern extremes and the inner
pattern (the slice `pattern[int(sa) : -int(ea) or None]`). -/
def stripAnchors (pattern : List Char) : Bool × Bool × List Char :=
  let sa := pattern.head? = some '^'
  let ea := pattern.getLast? = some '$'
  let afterStart := if sa then pattern.drop 1 else pattern
  (sa, ea, if ea then afterStart.dropLast else afterStart)

/-- `_count_capture_groups`: count `(` not immediately preceded by an
unconsumed `\` (a backslash skips the following character). -/
def countCaptureGroups : List Char → Nat
  | [] => 0
  | '\\' :: [] => 0
  | '\\' :: _ :: rest => countCaptureGroups rest
  | '(' :: rest => countCaptureGroups rest + 1
  | _ :: rest => countCaptureGroups rest

/-- Verdict of a whole `has_match` / `match_pattern` call: a boolean, a
propagated Python exception, or fuel exhaustion. -/
inductive RunRes where
  | ok (b : Bool)
  | err (e : Err)
  | out
  deriving DecidableEq, Repr

/-- The consumer implementing `next(gen)`: abort the enumeration at the first
yield. -/
def kFirst : Konsumer := fun _ _ _ => .stop

/-- The consumer implementing `any(i + poss[0] == n for poss in gen)`: abort
at the first yield whose length reaches the end of the original input,
otherwise keep consuming. -/
def kAny (i n : Nat) : Konsumer := fun len _ caps =>
  if i + len = n then .stop else .done [] caps

/-- The unanchored driver loop `for i in range(len(input_line) + 1)` of
`has_match`: try each start offset in turn; the capture table is *not* reset
between offsets (it is threaded through, as in the source). -/
def tryFrom (fuel : Nat) (rem inner : List Char) (i n : Nat) (caps : Captures)
    (ea : Bool) : RunRes :=
  match matchInner fuel rem inner 0 caps (if ea then kAny i n else kFirst), rem with
  | .stop, _ => .ok true
  | .err e, _ => .err e
  | .out, _ => .out
  | .done _ _, [] => .ok false
  | .done _ c, _ :: rem2 => tryFrom fuel rem2 inner (i + 1) n c ea

/-- `has_match(input_line, pattern)`: strip anchors, allocate a fresh capture
table sized by the group count, then either match once from the start (if
anchored) or try every offset. -/
def hasMatch (fuel : Nat) (input pattern : List Char) : RunRes :=
  match stripAnchors pattern with
  | (sa, ea, inner) =>
    let caps0 : Captures := List.replicate (countCaptureGroups pattern) none
    if sa then
      match matchInner fuel input inner 0 caps0
          (if ea then kAny 0 input.length else kFirst) with
      | .stop => .ok true
      | .err e => .err e
      | .out => .out
      | .done _ _ => .ok false
    else
      tryFrom fuel input inner 0 input.length caps0 ea

/-- `match_pattern(input_line)` on an engine whose capture table currently
holds `engineCaps` (left over from any earlier call): `has_match` overwrites
`self.captures` before doing anything else, so the argument is unused —
exactly the point of claim C8. -/
def matchPatternE (fuel : Nat) (engineCaps : Captures)
    (input pattern : List Char) : RunRes :=
  hasMatch fuel input pattern

/-- The collecting consumer used to state enumeration results: record each
yielded match length, leave the captures untouched. -/
def kCol : Konsumer := fun len _ caps => .done [len] caps

/-- The collecting consumer shifted by a fixed repetition length. -/
def kShift (k2 : Nat) : Konsumer := fun rLen _ caps => .done [k2 + rLen] caps

/-- A consumer is capture-preserving when, whenever it lets the enumeration
continue, it hands the capture table back unchanged. -/
def KPreserving (k : Konsumer) : Prop :=
  ∀ len ctr caps l c, k len ctr caps = .done l c → c = caps

/-- Specification-side combination of independent enumeration runs, all
starting from the same capture table `caps`: concatenate the collected
results in order, propagating the first abnormal outcome. -/
def resJoin (caps : Captures) : List Res → Res
  | [] => .done [] caps
  | r :: rs =>
    match r with
    | .done l _ => Res.withMore l (resJoin caps rs)
    | r2 => r2

/-- One-step unfolding of `matchInner` at positive fuel, phrased with the
named entry points; holds by definitional unfolding. -/
theorem matchInner_eq (f : Nat) (input pattern : List Char) (ctr : Nat)
    (caps : Captures) (k : Konsumer) :
    matchInner (f + 1) input pattern ctr caps k =
      match pattern with
      | [] => k 0 ctr caps
      | _ =>
        match parseExpression pattern with
        | .error e => .err e
        | .ok (expr, exprLen) =>
          let quant : Option Char :=
            match (pattern.drop exprLen).head? with
            | some c => if c = '+' ∨ c = '?' ∨ c = '*' then some c else none
            | none => none
          let rest := pattern.drop (exprLen + (if quant.isSome then 1 else 0))
          match expr with
          | .group alts =>
            let thisNum := ctr + 1
            match quant with
            | none =>
              matchGroupOnce f alts thisNum input thisNum caps
                (fun mLen nextCtr caps2 =>
                  matchInner f (input.drop mLen) rest nextCtr caps2
                    (fun rLen rCtr c2 => k (mLen + rLen) rCtr c2))
            | some '?' =>
              match matchGroupOnce f alts thisNum input thisNum caps
                  (fun mLen nextCtr caps2 =>
                    matchInner f (input.drop mLen) rest nextCtr caps2
                      (fun rLen rCtr c2 => k (mLen + rLen) rCtr c2)) with
              | .done l c => Res.withMore l (matchInner f input rest ctr c k)
              | r => r
            | some '+' =>
              matchPlusGroup f alts thisNum input thisNum caps
                (fun repsLen repsCtr caps2 =>
                  matchInner f (input.drop repsLen) rest repsCtr caps2
                    (fun rLen rCtr c2 => k (repsLen + rLen) rCtr c2))
            | some _ => .done [] caps
          | .backref n =>
            if caps.length < n then .done [] caps
            else
              match pyGet caps ((n : Int) - 1) with
              | none => .err .indexErr
              | some none => .done [] caps
              | some (some s) =>
                if s.isPrefixOf input then
                  matchInner f (input.drop s.length) rest ctr caps
                    (fun rLen rCtr c2 => k (s.length + rLen) rCtr c2)
                else .done [] caps
          | _ =>
            let fn := matchFn expr
            match quant with
            | none =>
              match input with
              | [] => .done [] caps
              | c :: inp2 =>
                if fn c then
                  matchInner f inp2 rest ctr caps
                    (fun rLen rCtr c2 => k (1 + rLen) rCtr c2)
                else .done [] caps
            | some '+' =>
              match input with
              | [] => .done [] caps
              | c :: inp2 =>
                if fn c then
                  matchRepsDown f (downTo1 (1 + repsScan fn inp2)) input rest ctr caps k
                else .done [] caps
            | some '?' =>
              match
                (match input with
                 | [] => Res.done [] caps
                 | c :: inp2 =>
                   if fn c then
                     matchInner f inp2 rest ctr caps
                       (fun rLen rCtr c2 => k (1 + rLen) rCtr c2)
                   else Res.done [] caps) with
              | .done l c => Res.withMore l (matchInner f input rest ctr c k)
              | r => r
            | some _ =>
              matchRepsDown f (downFrom (repsScan fn input)) input rest ctr caps k := by
  cases pattern <;> rfl

/-- One-step unfolding of `matchGroupOnce`; holds by definitional unfolding. -/
theorem matchGroupOnce_eq (fuel : Nat) (alts : List (List Char)) (thisNum : Nat)
    (inp : List Char) (grpCtr : Nat) (caps : Captures) (k : Konsumer) :
    matchGroupOnce fuel alts thisNum inp grpCtr caps k =
      match alts with
      | [] => .done [] caps
      | alt :: alts2 =>
        match matchInner fuel inp alt grpCtr caps (fun altLen altCtr caps2 =>
            match pySet caps2 (thisNum - 1) (inp.take altLen) with
            | none => .err .indexErr
            | some caps3 => k altLen altCtr caps3) with
        | .done l _ => Res.withMore l (matchGroupOnce fuel alts2 thisNum inp grpCtr caps k)
        | r => r := by
  cases alts <;> rfl

/-- One-step unfolding of `matchPlusGroup`; holds by definitional unfolding. -/
theorem matchPlusGroup_eq (fuel : Nat) (alts : List (List Char)) (thisNum : Nat)
    (inp : List Char) (grpCtr : Nat) (caps : Captures) (k : Konsumer) :
    matchPlusGroup fuel alts thisNum inp grpCtr caps k =
      match fuel with
      | 0 => .out
      | f + 1 =>
        matchGroupOnce f alts thisNum inp grpCtr caps (fun oneLen oneCtr caps2 =>
          match matchPlusGroup f alts thisNum (inp.drop oneLen) grpCtr caps2
              (fun rl rc c2 => k (oneLen + rl) rc c2) with
          | .done l _ => Res.withMore l (k oneLen oneCtr caps2)
          | r => r) := by
  cases fuel <;> rfl

/-- One-step unfolding of `matchRepsDown`; holds by definitional unfolding. -/
theorem matchRepsDown_eq (fuel : Nat) (ks : List Nat) (input rest : List Char)
    (ctr : Nat) (caps : Captures) (k : Konsumer) :
    matchRepsDown fuel ks input rest ctr caps k =
      match ks with
      | [] => .done [] caps
      | k2 :: ks2 =>
        match matchInner fuel (input.drop k2) rest ctr caps
            (fun rLen rCtr c2 => k (k2 + rLen) rCtr c2) with
        | .done l c => Res.withMore l (matchRepsDown fuel ks2 input rest ctr c k)
        | r => r := by
  cases ks <;> rfl

/-- `matchInner` at zero fuel. -/
theorem matchInner_zero (input pattern : List Char) (ctr : Nat)
    (caps : Captures) (k : Konsumer) :
    matchInner 0 input pattern ctr caps k = .out := rfl

theorem Res.withMore_done {l : List Nat} {r : Res} {l2 : List Nat} {c : Captures}
    (h : Res.withMore l r = .done l2 c) : ∃ l3, r = .done l3 c := by
  cases r with
  | done l4 c4 =>
    simp [Res.withMore] at h
    exact ⟨l4, by rw [h.2]⟩
  | out => simp [Res.withMore] at h
  | err e => simp [Res.withMore] at h
  | stop => simp [Res.withMore] at h

theorem KPreserving.wrap {k : Konsumer} (hk : KPreserving k) (x : Nat) :
    KPreserving (fun rl rc c2 => k (x + rl) rc c2) :=
  fun len ctr caps l c h => hk (x + len) ctr caps l c h

theorem matchGroupOnce_caps (fuel : Nat) (alts : List (List Char)) (tn : Nat)
    (inp : List Char) (gc : Nat) (caps : Captures) (k : Konsumer) :
    ∀ l c, matchGroupOnce fuel alts tn inp gc caps k = .done l c → c = caps := by
  induction alts with
  | nil =>
    intro l c h
    rw [matchGroupOnce_eq] at h
    simp only [Res.done.injEq] at h
    exact h.2.symm
  | cons alt alts2 ih =>
    intro l c h
    rw [matchGroupOnce_eq] at h
    dsimp only at h
    split at h
    · obtain ⟨l3, h3⟩ := Res.withMore_done h
      exact ih l3 c h3
    · rename_i r hf
      exact absurd h (fun hh => hf l c hh)

theorem matchPlusGroup_caps (fuel : Nat) (alts : List (List Char)) (tn : Nat)
    (inp : List Char) (gc : Nat) (caps : Captures) (k : Konsumer) :
    ∀ l c, matchPlusGroup fuel alts tn inp gc caps k = .done l c → c = caps := by
  cases fuel with
  | zero => intro l c h; rw [matchPlusGroup_eq] at h; simp at h
  | succ f =>
    intro l c h
    rw [matchPlusGroup_eq] at h
    exact matchGroupOnce_caps f alts tn inp gc caps _ l c h

theorem matchRepsDown_caps (fuel : Nat)
    (hmi : ∀ (input pattern : List Char) (ctr : Nat) (caps : Captures) (k : Konsumer),
      KPreserving k → ∀ l c, matchInner fuel input pattern ctr caps k = .done l c → c = caps)
    (ks : List Nat) (input rest : List Char) (ctr : Nat) (caps : Captures)
    (k : Konsumer) (hk : KPreserving k) :
    ∀ l c, matchRepsDown fuel ks input rest ctr caps k = .done l c → c = caps := by
  induction ks generalizing caps with
  | nil =>
    intro l c h
    rw [matchRepsDown_eq] at h
    simp only [Res.done.injEq] at h
    exact h.2.symm
  | cons k2 ks2 ih =>
    intro l c h
    rw [matchRepsDown_eq] at h
    dsimp only at h
    split at h
    · rename_i l1 c1 heq
      obtain ⟨l3, h3⟩ := Res.withMore_done h
      have hc1 : c1 = caps := hmi _ _ _ _ _ (hk.wrap k2) l1 c1 heq
      have := ih c1 l3 c h3
      rw [this, hc1]
    · rename_i r hf
      exact absurd h (fun hh => hf l c hh)

theorem matchInner_caps : ∀ (fuel : Nat) (input pattern : List Char) (ctr : Nat)
    (caps : Captures) (k : Konsumer), KPreserving k →
    ∀ l c, matchInner fuel input pattern ctr caps k = .done l c → c = caps := by
  intro fuel
  induction fuel with
  | zero =>
    intro input pattern ctr caps k hk l c h
    rw [matchInner_zero] at h
    simp at h
  | succ f ih =>
    intro input pattern ctr caps k hk l c h
    cases pattern with
    | nil =>
      rw [matchInner_eq] at h
      exact hk 0 ctr caps l c h
    | cons p0 ps =>
      rw [matchInner_eq] at h
      dsimp only at h
      split at h
      · simp at h
      · rename_i expr exprLen heqp
        split at h
        -- group cases
        case _ alts =>
          split at h
          · exact matchGroupOnce_caps f alts _ input _ caps _ l c h
          · -- group '?'
            split at h
            · rename_i l1 c1 heq1
              obtain ⟨l3, h3⟩ := Res.withMore_done h
              have hc1 : c1 = caps := matchGroupOnce_caps f alts _ input _ caps _ l1 c1 heq1
              have := ih input _ ctr c1 k hk l3 c h3
              rw [this, hc1]
            · rename_i r hf
              exact absurd h (fun hh => hf l c hh)
          · exact matchPlusGroup_caps f alts _ input _ caps _ l c h
          · simp at h; exact h.2.symm
        -- backref case
        case _ n =>
          split at h
          · simp at h; exact h.2.symm
          · split at h
            · simp at h
            · simp at h; exact h.2.symm
            · rename_i s heqg
              split at h
              · exact ih _ _ ctr caps _ (hk.wrap s.length) l c h
              · simp at h; exact h.2.symm
        -- predicate atom cases
        case _ =>
          split at h
          · -- no quantifier
            split at h
            · simp at h; exact h.2.symm
            · split at h
              · exact ih _ _ ctr caps _ (hk.wrap 1) l c h
              · simp at h; exact h.2.symm
          · -- '+'
            split at h
            · simp at h; exact h.2.symm
            · split at h
              · exact matchRepsDown_caps f (fun a b d e g => ih a b d e g) _ _ _ ctr caps k hk l c h
              · simp at h; exact h.2.symm
          · -- '?'
            split at h
            · rename_i l1 c1 heq1
              obtain ⟨l3, h3⟩ := Res.withMore_done h
              have hc1 : c1 = caps := by
                split at heq1
                · simp at heq1; exact heq1.2.symm
                · split at heq1
                  · exact ih _ _ ctr caps _ (hk.wrap 1) l1 c1 heq1
                  · simp at heq1; exact heq1.2.symm
              have := ih input _ ctr c1 k hk l3 c h3
              rw [this, hc1]
            · rename_i r hf
              exact absurd h (fun hh => hf l c hh)
          · -- '*'
            exact matchRepsDown_caps f (fun a b d e g => ih a b d e g) _ _ _ ctr caps k hk l c h

theorem repsScan_eq_takeWhile (fn : Char → Bool) (l : List Char) :
    repsScan fn l = (l.takeWhile fn).length := by
  induction l with
  | nil => simp [repsScan]
  | cons c rest ih =>
    by_cases h : fn c <;> simp [repsScan, List.takeWhile_cons, h, ih] <;> omega

theorem classScan_append (b0 q bd : List Char)
    (h : classScan b0 = some (bd, b0.length)) :
    classScan (b0 ++ q) = some (bd, b0.length) := by
  induction b0 generalizing bd with
  | nil => simp [classScan] at h
  | cons c r ih =>
    by_cases hc : c = ']'
    · subst hc
      simp only [classScan, if_pos rfl, if_true] at h
      simp only [Option.some.injEq, Prod.mk.injEq, List.length_cons] at h
      have hr : r = [] := List.length_eq_zero.mp (by omega)
      subst hr
      simp [classScan, h.1]
    · simp only [classScan, if_neg hc] at h
      rcases hs : classScan r with _ | ⟨b2, n2⟩
      · rw [hs] at h; simp at h
      · rw [hs] at h
        simp only [Option.some.injEq, Prod.mk.injEq, List.length_cons] at h
        obtain ⟨hbd, hn⟩ := h
        have hn2 : n2 = r.length := by omega
        subst hn2
        have ihq := ih b2 hs
        simp only [List.cons_append, classScan, if_neg hc, ← hbd, List.append_eq]
        rw [ihq]
        simp

theorem parseExpression_not_paren (l : List Char) (hl : l.head? ≠ some '(') :
    parseExpression l = parseSingleAtom l := by
  cases l with
  | nil => rfl
  | cons c rest =>
    rw [parseExpression.eq_def]
    split
    · rename_i rest2 heq
      exact absurd (by rw [List.cons.injEq] at heq; simp [heq.1]) hl
    · rfl

theorem parseSingleAtom_other (c : Char) (rest : List Char)
    (h1 : c ≠ '\\') (h2 : c ≠ '[') (h3 : c ≠ '.') :
    parseSingleAtom (c :: rest) = .ok (.literal c, 1) := by
  rw [parseSingleAtom.eq_def]
  split
  · rename_i heq
    simp at heq
  · rename_i heq
    rw [List.cons.injEq] at heq
    exact absurd heq.1 h1
  · rename_i heq
    rw [List.cons.injEq] at heq
    exact absurd heq.1 h2
  · rename_i heq
    rw [List.cons.injEq] at heq
    exact absurd heq.1 h3
  · rename_i c2 tail f1 f2 f3 heq
    rw [List.cons.injEq] at heq
    rw [heq.1]

theorem parseSingleAtom_append (p q : List Char) (e : Expr)
    (h : parseSingleAtom p = .ok (e, p.length)) :
    parseSingleAtom (p ++ q) = .ok (e, p.length) := by
  cases p with
  | nil => simp [parseSingleAtom] at h
  | cons c rest =>
    by_cases h1 : c = '\\'
    · subst h1
      cases rest with
      | nil => simp [parseSingleAtom] at h
      | cons d r2 =>
        have hr2 : r2 = [] := by
          simp only [parseSingleAtom, List.length_cons] at h
          split at h
          · simp only [Except.ok.injEq, Prod.mk.injEq] at h
            exact List.length_eq_zero.mp (by omega)
          · split at h <;>
              (simp only [Except.ok.injEq, Prod.mk.injEq] at h
               exact List.length_eq_zero.mp (by omega))
        subst hr2
        simp only [parseSingleAtom, List.cons_append] at h ⊢
        exact h
    · by_cases h2 : c = '['
      · subst h2
        rcases rest with _ | ⟨c2, r2⟩
        · simp [parseSingleAtom, classScan] at h
        · by_cases h3 : c2 = '^'
          · subst h3
            simp only [parseSingleAtom, List.length_cons] at h ⊢
            rcases hcs : classScan r2 with _ | ⟨body, consumed⟩
            · rw [hcs] at h; simp at h
            · rw [hcs] at h
              simp only [Except.ok.injEq, Prod.mk.injEq] at h
              have hcons : consumed = r2.length := by omega
              subst hcons
              have := classScan_append r2 q body hcs
              simp only [List.cons_append, this]
              simp only [Except.ok.injEq, Prod.mk.injEq]
              exact ⟨h.1, by omega⟩
          · simp only [parseSingleAtom, List.length_cons] at h ⊢
            split at h
            · rename_i r2b heq
              rw [List.cons.injEq] at heq
              exact absurd heq.1 h3
            · rcases hcs : classScan (c2 :: r2) with _ | ⟨body, consumed⟩
              · rw [hcs] at h; simp at h
              · rw [hcs] at h
                simp only [Except.ok.injEq, Prod.mk.injEq] at h
                have hcons : consumed = (c2 :: r2).length := by
                  simp only [List.length_cons]; omega
                subst hcons
                have hap := classScan_append (c2 :: r2) q body hcs
                simp only [List.cons_append]
                split
                · rename_i r2b heq
                  rw [List.cons.injEq] at heq
                  exact absurd heq.1 h3
                · rw [show c2 :: (r2 ++ q) = (c2 :: r2) ++ q from rfl, hap]
                  simp only [Except.ok.injEq, Prod.mk.injEq, List.length_cons] at hcs ⊢
                  refine ⟨h.1, by omega⟩
      · by_cases h4 : c = '.'
        · subst h4
          simp only [parseSingleAtom, List.length_cons] at h
          simp only [Except.ok.injEq, Prod.mk.injEq] at h
          have hr : rest = [] := List.length_eq_zero.mp (by omega)
          subst hr
          simp [parseSingleAtom, ← h.1]
        · rw [parseSingleAtom_other c rest h1 h2 h4] at h
          simp only [Except.ok.injEq, Prod.mk.injEq] at h
          have hr : rest = [] := by
            simp only [List.length_cons] at h
            exact List.length_eq_zero.mp (by omega)
          subst hr
          rw [List.cons_append, List.nil_append]
          rw [parseSingleAtom_other c q h1 h2 h4]
          simp [← h.1]

theorem kCol_pres : KPreserving kCol := by
  intro len ctr caps l c h
  simp only [kCol, Res.done.injEq] at h
  exact h.2.symm

theorem kShift_pres (k2 : Nat) : KPreserving (kShift k2) := by
  intro len ctr caps l c h
  simp only [kShift, Res.done.injEq] at h
  exact h.2.symm

theorem matchRepsDown_eq_resJoin (fuel : Nat) (ks : List Nat)
    (input rest : List Char) (ctr : Nat) (caps : Captures) :
    matchRepsDown fuel ks input rest ctr caps kCol =
      resJoin caps (ks.map fun k2 =>
        matchInner fuel (input.drop k2) rest ctr caps (kShift k2)) := by
  induction ks with
  | nil => rw [matchRepsDown_eq]; simp [resJoin]
  | cons k2 ks2 ih =>
    rw [matchRepsDown_eq]
    dsimp only
    have hconv : (fun rLen rCtr c2 => kCol (k2 + rLen) rCtr c2) = kShift k2 := rfl
    rw [hconv]
    rcases hr : matchInner fuel (input.drop k2) rest ctr caps (kShift k2) with _ | e | _ | ⟨l, c⟩
    · simp only [List.map_cons]; rw [hr]; simp [resJoin]
    · simp only [List.map_cons]; rw [hr]; simp [resJoin]
    · simp only [List.map_cons]; rw [hr]; simp [resJoin]
    · have hc : c = caps :=
        matchInner_caps fuel (input.drop k2) rest ctr caps (kShift k2) (kShift_pres k2) l c hr
      subst hc
      simp only [List.map_cons, resJoin, hr]
      rw [ih]

theorem parseSingleAtom_not_group (p : List Char) (e : Expr) (n : Nat)
    (h : parseSingleAtom p = .ok (e, n)) : ∀ alts, e ≠ .group alts := by
  intro alts he
  subst he
  rw [parseSingleAtom.eq_def] at h
  repeat' split at h
  all_goals simp at h

theorem parseExpression_append_atom (p q : List Char) (e : Expr)
    (hp : parseSingleAtom p = .ok (e, p.length))
    (hhead : p.head? ≠ some '(') :
    parseExpression (p ++ q) = .ok (e, p.length) := by
  rw [parseExpression_not_paren]
  · exact parseSingleAtom_append p q e hp
  · cases p with
    | nil => simp [parseSingleAtom] at hp
    | cons p0 p' => simpa using hhead

theorem matchInner_atom_plus (f : Nat) (p rest input : List Char) (e : Expr)
    (ctr : Nat) (caps : Captures) (k : Konsumer)
    (hp : parseSingleAtom p = .ok (e, p.length))
    (hhead : p.head? ≠ some '(')
    (hnb : ∀ n, e ≠ .backref n) :
    matchInner (f + 1) input (p ++ '+' :: rest) ctr caps k =
      (match input with
      | [] => Res.done [] caps
      | c :: inp2 =>
        if matchFn e c then
          matchRepsDown f (downTo1 (1 + repsScan (matchFn e) inp2)) input rest ctr caps k
        else Res.done [] caps) := by
  obtain ⟨p0, p2, rfl⟩ : ∃ p0 p2, p = p0 :: p2 := by
    cases p with
    | nil => simp [parseSingleAtom] at hp
    | cons a b => exact ⟨a, b, rfl⟩
  have hpe : parseExpression ((p0 :: p2) ++ '+' :: rest) = .ok (e, (p0 :: p2).length) :=
    parseExpression_append_atom _ _ e hp hhead
  have hdrop1 : ((p0 :: p2) ++ '+' :: rest).drop (p0 :: p2).length = '+' :: rest :=
    List.drop_left _ _
  have hdrop2 : ((p0 :: p2) ++ '+' :: rest).drop ((p0 :: p2).length + 1) = rest := by
    rw [show (p0 :: p2) ++ '+' :: rest = ((p0 :: p2) ++ ['+']) ++ rest by simp]
    rw [show (p0 :: p2).length + 1 = ((p0 :: p2) ++ ['+']).length by simp]
    exact List.drop_left _ _
  rw [List.cons_append] at hpe hdrop1 hdrop2 ⊢
  rw [matchInner_eq]
  dsimp only
  rw [hpe]
  dsimp only
  rw [hdrop1]
  simp only [List.head?_cons]
  simp only [true_or, if_true, Option.isSome_some]
  rw [hdrop2]
  cases e with
  | literal c0 => rfl
  | escClass c0 => rfl
  | charClass b0 n0 => rfl
  | wildcard => rfl
  | backref n => exact absurd rfl (hnb n)
  | group alts => exact absurd rfl (parseSingleAtom_not_group _ _ _ hp alts)

theorem matchInner_atom_star (f : Nat) (p rest input : List Char) (e : Expr)
    (ctr : Nat) (caps : Captures) (k : Konsumer)
    (hp : parseSingleAtom p = .ok (e, p.length))
    (hhead : p.head? ≠ some '(')
    (hnb : ∀ n, e ≠ .backref n) :
    matchInner (f + 1) input (p ++ '*' :: rest) ctr caps k =
      matchRepsDown f (downFrom (repsScan (matchFn e) input)) input rest ctr caps k := by
  obtain ⟨p0, p2, rfl⟩ : ∃ p0 p2, p = p0 :: p2 := by
    cases p with
    | nil => simp [parseSingleAtom] at hp
    | cons a b => exact ⟨a, b, rfl⟩
  have hpe : parseExpression ((p0 :: p2) ++ '*' :: rest) = .ok (e, (p0 :: p2).length) :=
    parseExpression_append_atom _ _ e hp hhead
  have hdrop1 : ((p0 :: p2) ++ '*' :: rest).drop (p0 :: p2).length = '*' :: rest :=
    List.drop_left _ _
  have hdrop2 : ((p0 :: p2) ++ '*' :: rest).drop ((p0 :: p2).length + 1) = rest := by
    rw [show (p0 :: p2) ++ '*' :: rest = ((p0 :: p2) ++ ['*']) ++ rest by simp]
    rw [show (p0 :: p2).length + 1 = ((p0 :: p2) ++ ['*']).length by simp]
    exact List.drop_left _ _
  rw [List.cons_append] at hpe hdrop1 hdrop2 ⊢
  rw [matchInner_eq]
  dsimp only
  rw [hpe]
  dsimp only
  rw [hdrop1]
  simp only [List.head?_cons]
  simp only [or_true, if_true, Option.isSome_some]
  rw [hdrop2]
  cases e with
  | literal c0 => rfl
  | escClass c0 => rfl
  | charClass b0 n0 => rfl
  | wildcard => rfl
  | backref n => exact absurd rfl (hnb n)
  | group alts => exact absurd rfl (parseSingleAtom_not_group _ _ _ hp alts)

/-- C1: capture assignments are path-local.  For any sub-search started with
capture table `caps` and any capture-preserving consumer, when the search is
exhausted (abandoned after all its yields) the capture table equals `caps`
again: this holds for `match_inner` itself, for the alternative loop of
`match_group_content_once` (backtrack point (a), restore between
alternatives), and for `match_plus_group` (backtrack point (b), restore
between `+` iterations); the `?` zero-match branch (backtrack point (c)) is
the `matchInner` case for a `?`-quantified group.  Descendant explorations are
started from the snapshot `caps` by the very equations of `matchGroupOnce`. -/
theorem spec_c1 (fuel : Nat) (input pattern : List Char) (ctr : Nat)
    (caps : Captures) (k : Konsumer) (hk : KPreserving k) :
    (∀ l c, matchInner fuel input pattern ctr caps k = .done l c → c = caps)
    ∧ (∀ alts thisNum grpCtr l c,
        matchGroupOnce fuel alts thisNum input grpCtr caps k = .done l c → c = caps)
    ∧ (∀ alts thisNum grpCtr l c,
        matchPlusGroup fuel alts thisNum input grpCtr caps k = .done l c → c = caps) :=
  ⟨matchInner_caps fuel input pattern ctr caps k hk,
   fun alts tn gc => matchGroupOnce_caps fuel alts tn input gc caps k,
   fun alts tn gc => matchPlusGroup_caps fuel alts tn input gc caps k⟩

/-- Witness for C1 at a concrete input: matching `(a|b)` against `ab` from
table `[none]` writes slot 1 on the way but hands back `[none]` on
exhaustion. -/
theorem spec_c1_witness : ([none] : Captures) = ([none] : Captures) :=
  (spec_c1 8 "ab".toList "(a|b)".toList 0 [none] kCol kCol_pres).1
    [1] [none] (by decide)

/-- C5: greedy-first enumeration for atom quantifiers.  For a (non-group,
non-backreference) atom followed by `+`: on empty input or a first character
failing the predicate there are no yields; otherwise, with `K` the length of
the maximal matching prefix, the enumeration equals the in-order join, for
repetition counts `k2 = K` down to `1`, of the tail enumerations of the rest
of the pattern on `input[k2..]` with every length shifted by `k2` — each tail
run starting from the same capture table.  For `*` the same holds with `k2`
running from `K` down to `0`, unconditionally.  The head of the join is the
maximal-repetition branch, so the first result enumerated uses the most
repetitions that still let the remainder match. -/
theorem spec_c5 (f : Nat) (p rest input : List Char) (e : Expr) (ctr : Nat)
    (caps : Captures)
    (hp : parseSingleAtom p = .ok (e, p.length))
    (hhead : p.head? ≠ some '(')
    (hnb : ∀ n, e ≠ .backref n) :
    (input = [] → matchInner (f + 1) input (p ++ '+' :: rest) ctr caps kCol = .done [] caps)
    ∧ (∀ c inp2, input = c :: inp2 → matchFn e c = false →
        matchInner (f + 1) input (p ++ '+' :: rest) ctr caps kCol = .done [] caps)
    ∧ (∀ c inp2, input = c :: inp2 → matchFn e c = true →
        matchInner (f + 1) input (p ++ '+' :: rest) ctr caps kCol =
          resJoin caps ((downTo1 ((input.takeWhile (matchFn e)).length)).map fun k2 =>
            matchInner f (input.drop k2) rest ctr caps (kShift k2)))
    ∧ (matchInner (f + 1) input (p ++ '*' :: rest) ctr caps kCol =
        resJoin caps ((downFrom ((input.takeWhile (matchFn e)).length)).map fun k2 =>
          matchInner f (input.drop k2) rest ctr caps (kShift k2))) := by
  refine ⟨?_, ?_, ?_, ?_⟩
  · intro h0
    rw [matchInner_atom_plus f p rest input e ctr caps kCol hp hhead hnb, h0]
  · intro c inp2 hin hf
    rw [matchInner_atom_plus f p rest input e ctr caps kCol hp hhead hnb, hin]
    simp [hf]
  · intro c inp2 hin hf
    rw [matchInner_atom_plus f p rest input e ctr caps kCol hp hhead hnb, hin]
    have hlen : 1 + repsScan (matchFn e) inp2 =
        ((c :: inp2).takeWhile (matchFn e)).length := by
      rw [List.takeWhile_cons, if_pos hf]
      simp [repsScan_eq_takeWhile]
      omega
    simp only [if_pos hf]
    rw [matchRepsDown_eq_resJoin, hlen]
  · rw [matchInner_atom_star f p rest input e ctr caps kCol hp hhead hnb]
    rw [matchRepsDown_eq_resJoin, repsScan_eq_takeWhile]

/-- Witness for C5 at a concrete input: `a+` then `b` against `aab`. -/
theorem spec_c5_witness :
    matchInner 6 "aab".toList ("a".toList ++ '+' :: "b".toList) 0 [] kCol =
      resJoin [] ((downTo1 (("aab".toList.takeWhile (matchFn (.literal 'a'))).length)).map
        fun k2 => matchInner 5 ("aab".toList.drop k2) "b".toList 0 [] (kShift k2)) :=
  (spec_c5 5 "a".toList "b".toList "aab".toList (.literal 'a') 0 []
    (by decide) (by decide) (fun n h => Expr.noConfusion h)).2.2.1
    'a' "ab".toList rfl (by decide)

/-- C2 counterexample: the claim fails when `p` is a parenthesised group.
`(a)+` matches `a`, but `(a)*` matches nothing at all: in the source the
group dispatch handles no quantifier, `?` and `+`, and a `*` on a group falls
through to `return` without yielding. -/
theorem spec_c2_cex :
    hasMatch 12 "a".toList "(a)+".toList = .ok true ∧
    hasMatch 12 "a".toList "(a)*".toList = .ok false := by
  constructor
  · rfl
  · rfl

/-- C2 amended: quantifier monotonicity holds when `p` is a complete single
(non-group, non-backreference) atom not starting with `^` or `(`: if
`match_pattern(s, p + "+")` is true then so is `match_pattern(s, p + "*")` —
indeed `p + "*"` then matches every input via the zero-width repetition, so
the hypothesis is not even needed. -/
theorem spec_c2 (p : List Char) (e : Expr)
    (hp : parseSingleAtom p = .ok (e, p.length))
    (hcaret : p.head? ≠ some '^')
    (hparen : p.head? ≠ some '(')
    (hnb : ∀ n, e ≠ .backref n)
    (s : List Char) (fuel : Nat)
    (hplus : hasMatch fuel s (p ++ ['+']) = .ok true) :
    hasMatch 2 s (p ++ ['*']) = .ok true := by
  have hne : p ≠ [] := by
    intro h0
    rw [h0] at hp
    simp [parseSingleAtom] at hp
  have hsa : ¬ (p ++ ['*']).head? = some '^' := by
    cases p with
    | nil => exact absurd rfl hne
    | cons a b => simpa using hcaret
  have hea : (p ++ ['*']).getLast? = some '*' := by
    simp
  have hstrip : stripAnchors (p ++ ['*']) = (false, false, p ++ ['*']) := by
    simp [stripAnchors, hsa, hea]
    exact ⟨hcaret, fun h => absurd h hcaret⟩
  have hstar := matchInner_atom_star 1 p [] s e 0
      (List.replicate (countCaptureGroups (p ++ ['*'])) none) kFirst hp hparen hnb
  have hstop : matchRepsDown 1 (downFrom (repsScan (matchFn e) s)) s [] 0
      (List.replicate (countCaptureGroups (p ++ ['*'])) none) kFirst = .stop := by
    obtain ⟨k2, ks, heq⟩ : ∃ k2 ks, downFrom (repsScan (matchFn e) s) = k2 :: ks := by
      cases repsScan (matchFn e) s with
      | zero => exact ⟨0, [], rfl⟩
      | succ m => exact ⟨m + 1, downFrom m, by simp [downFrom, downTo1]⟩
    rw [heq]
    rfl
  rw [hasMatch, hstrip]
  dsimp only
  rw [tryFrom.eq_def]
  simp only [Bool.false_eq_true, if_false]
  rw [show (2 : Nat) = 1 + 1 from rfl]
  rw [hstar, hstop]

/-- Witness for the amended C2 at a concrete input. -/
theorem spec_c2_witness : hasMatch 2 "aa".toList ("a".toList ++ ['*']) = .ok true :=
  spec_c2 "a".toList (.literal 'a') (by decide) (by decide) (by decide)
    (fun n h => Expr.noConfusion h) "aa".toList 10 (by decide)

/-- C3 counterexample: a malformed pattern does not always raise.  Parsing is
interleaved with matching, so when the atom `a` fails before the unclosed `(`
is ever parsed, `has_match("b", "a(")` returns a false verdict and no
`RuntimeError` is raised. -/
theorem spec_c3_cex : hasMatch 10 "b".toList "a(".toList = .ok false := by rfl

/-- C3 amended: the malformed-pattern `RuntimeError`s are raised when the
on-demand parse reaches the malformed construct; in particular, when the
malformed construct is at the head of the pattern, matching raises for every
input line: an unclosed `(`, an unclosed `[`, and a trailing `\` each abort
the very first offset with the corresponding error rather than returning a
verdict. -/
theorem spec_c3 (s : List Char) (fuel : Nat) :
    hasMatch (fuel + 1) s "(".toList = .err .missingParen
    ∧ hasMatch (fuel + 1) s "[".toList = .err .missingBracket
    ∧ hasMatch (fuel + 1) s "\\".toList = .err .incompleteEscape := by
  refine ⟨?_, ?_, ?_⟩ <;> cases s <;> rfl

/-- C7: the bare-anchor edge cases.  `^$` matches only the empty input, `^`
alone matches every input, `$` alone matches every input. -/
theorem spec_c7 (s : List Char) (fuel : Nat) :
    hasMatch (fuel + 1) s "^$".toList = .ok s.isEmpty
    ∧ hasMatch (fuel + 1) s "^".toList = .ok true
    ∧ hasMatch (fuel + 1) s "$".toList = .ok true := by
  refine ⟨?_, ?_, ?_⟩
  · cases s with
    | nil => rfl
    | cons a s2 =>
      have hne : ¬ (0 + 0 = (a :: s2).length) := by simp
      show (match (if 0 + 0 = (a :: s2).length then Res.stop else Res.done [] []) with
            | Res.stop => RunRes.ok true
            | Res.err e => RunRes.err e
            | Res.out => RunRes.out
            | Res.done _ _ => RunRes.ok false) = RunRes.ok (a :: s2).isEmpty
      rw [if_neg hne]
      rfl
  · rfl
  · have hloop : ∀ (rem : List Char) (i n : Nat) (caps : Captures),
        i + rem.length = n → tryFrom (fuel + 1) rem [] i n caps true = .ok true := by
      intro rem
      induction rem with
      | nil =>
        intro i n caps hin
        have h0 : i + 0 = n := by simpa using hin
        rw [tryFrom.eq_def]
        rw [show matchInner (fuel + 1) [] [] 0 caps
            (if (true : Bool) = true then kAny i n else kFirst) =
            (if i + 0 = n then Res.stop else Res.done [] caps) from rfl]
        rw [if_pos h0]
      | cons a rem2 ih =>
        intro i n caps hin
        have h0 : ¬ i + 0 = n := by simp only [List.length_cons] at hin; omega
        rw [tryFrom.eq_def]
        rw [show matchInner (fuel + 1) (a :: rem2) [] 0 caps
            (if (true : Bool) = true then kAny i n else kFirst) =
            (if i + 0 = n then Res.stop else Res.done [] caps) from rfl]
        rw [if_neg h0]
        exact ih (i + 1) n caps (by simp only [List.length_cons] at hin; omega)
    exact hloop s 0 s.length [] (Nat.zero_add _)

/-- C8: order-independence of `match_pattern`.  The verdict is the same
whatever capture table the engine inherited from earlier calls, because
`has_match` re-allocates `self.captures` before doing anything else; in the
embedding the inherited table is simply never consulted, and the function is
pure by construction (no I/O anywhere in the model). -/
theorem spec_c8 (fuel : Nat) (caps1 caps2 : Captures) (s p : List Char) :
    matchPatternE fuel caps1 s p = matchPatternE fuel caps2 s p := rfl

/-- C9: a `\0` escape in a pattern with no capture groups raises an uncaught
`IndexError` on every input line: `\0` parses as backreference number 0, the
unset-slot guard `len(captures) < 0` never fires, and `captures[-1]` indexes
position -1 of the empty capture list. -/
theorem spec_c9 (fuel : Nat) (s R : List Char)
    (hz : countCaptureGroups ('\\' :: '0' :: R) = 0) :
    hasMatch (fuel + 1) s ('\\' :: '0' :: R) = .err .indexErr := by
  by_cases hea : ('\\' :: '0' :: R).getLast? = some '$'
  · obtain ⟨r0, R2, rfl⟩ : ∃ r0 R2, R = r0 :: R2 := by
      cases R with
      | nil => simp at hea
      | cons a b => exact ⟨a, b, rfl⟩
    have hstrip : stripAnchors ('\\' :: '0' :: r0 :: R2) =
        (false, true, ('\\' :: '0' :: r0 :: R2).dropLast) := by
      simp [stripAnchors, hea]
    rw [hasMatch, hstrip]
    dsimp only
    rw [hz]
    cases s <;> rfl
  · have hstrip : stripAnchors ('\\' :: '0' :: R) = (false, false, '\\' :: '0' :: R) := by
      simp only [List.getLast?_cons_cons] at hea
      simp [stripAnchors, List.getLast?_cons_cons]
      exact ⟨hea, fun h => absurd h hea⟩
    rw [hasMatch, hstrip]
    dsimp only
    rw [hz]
    cases s <;> rfl

/-- Witness for C9 at a concrete input. -/
theorem spec_c9_witness : hasMatch 5 "abc".toList ('\\' :: '0' :: []) = .err .indexErr :=
  spec_c9 4 "abc".toList [] (by decide)

/-- C10 counterexample: with a double quantifier the claim fails.  In
`(a)\1++` the first `+` is consumed and ignored, but the second `+` becomes a
*literal* atom in the rest of the pattern, so the verdict on `aa` (false)
differs from that of `(a)\1+` (true), although the latter is the former with
the quantifier character after the backreference deleted. -/
theorem spec_c10_cex :
    hasMatch 20 "aa".toList "(a)\\1++".toList = .ok false ∧
    hasMatch 20 "aa".toList "(a)\\1+".toList = .ok true := by
  constructor
  · rfl
  · rfl

/-- C10 amended: when the matcher dispatches on a backreference followed by a
quantifier character whose next character is not itself a quantifier
character, the enumeration is identical to that of the pattern with the
quantifier character deleted, for every input, capture table, group counter
and consumer: the quantifier is stripped into the rest-of-pattern computation
before dispatch and the backreference branch never consults it. -/
theorem spec_c10 (fuel : Nat) (input R : List Char) (d q : Char) (ctr : Nat)
    (caps : Captures) (k : Konsumer)
    (hd : d.isDigit = true)
    (hq : q = '+' ∨ q = '?' ∨ q = '*')
    (hR : ∀ c, R.head? = some c → ¬(c = '+' ∨ c = '?' ∨ c = '*')) :
    matchInner fuel input ('\\' :: d :: q :: R) ctr caps k =
      matchInner fuel input ('\\' :: d :: R) ctr caps k := by
  cases fuel with
  | zero => rfl
  | succ f =>
    have hpe1 : parseExpression ('\\' :: d :: q :: R) =
        .ok (.backref (d.toNat - '0'.toNat), 2) := by
      rw [parseExpression_not_paren _ (by simp)]
      simp only [parseSingleAtom]
      rw [if_pos hd]
    have hpe2 : parseExpression ('\\' :: d :: R) =
        .ok (.backref (d.toNat - '0'.toNat), 2) := by
      rw [parseExpression_not_paren _ (by simp)]
      simp only [parseSingleAtom]
      rw [if_pos hd]
    rw [matchInner_eq, matchInner_eq]
    dsimp only
    rw [hpe1, hpe2]
    dsimp only
    simp only [show (List.drop 2 ('\\' :: d :: q :: R)).head? = some q from rfl,
      show (List.drop 2 ('\\' :: d :: R)).head? = R.head? from rfl]
    have hqq : (if q = '+' ∨ q = '?' ∨ q = '*' then some q else none) = some q := if_pos hq
    simp only [hqq]
    cases R with
    | nil => rfl
    | cons r0 R2 =>
      have hval : (if r0 = '+' ∨ r0 = '?' ∨ r0 = '*' then some r0 else none) =
          (none : Option Char) := if_neg (hR r0 rfl)
      simp only [List.head?_cons, hval]
      rfl

/-- Witness for the amended C10 at a concrete input: `\1+` and `\1` enumerate
identically against `aa` when slot 1 holds `a`. -/
theorem spec_c10_witness :
    matchInner 5 "aa".toList ('\\' :: '1' :: '+' :: []) 0 [some ['a']] kCol =
      matchInner 5 "aa".toList ('\\' :: '1' :: []) 0 [some ['a']] kCol :=
  spec_c10 5 "aa".toList [] '1' '+' 0 [some ['a']] kCol (by decide)
    (Or.inl rfl) (fun c h => by simp at h)

/-- On empty input, `match_plus_group` for the group `(a|)` never terminates:
the empty alternative matches zero width and the recursion re-enters the same
state, so every fuel bound is exhausted. -/
theorem matchPlusGroup_empty_out (f : Nat) :
    ∀ (c0 : Option (List Char)) (k : Konsumer),
      matchPlusGroup f [['a'], []] 1 [] 1 [c0] k = .out := by
  induction f with
  | zero => intro c0 k; rfl
  | succ f ih =>
    intro c0 k
    cases f with
    | zero => rfl
    | succ g =>
      have key : matchPlusGroup (g + 1 + 1) [['a'], []] 1 [] 1 [c0] k =
          Res.withMore []
            (match
              (match matchPlusGroup (g + 1) [['a'], []] 1 [] 1 [some []]
                  (fun rl rc c2 => k (0 + rl) rc c2) with
                | .done l _ => Res.withMore l (k 0 1 [some []])
                | r => r) with
              | .done l _ => Res.withMore l (Res.done [] [c0])
              | r => r) := rfl
      rw [key, ih (some []) (fun rl rc c2 => k (0 + rl) rc c2)]
      rfl

/-- On input `a`, `match_plus_group` for `(a|)` consumes the `a` and then
reaches the divergent empty-input state: every fuel bound is exhausted. -/
theorem matchPlusGroup_a_out (f : Nat) :
    ∀ (c0 : Option (List Char)) (k : Konsumer),
      matchPlusGroup f [['a'], []] 1 ['a'] 1 [c0] k = .out := by
  intro c0 k
  cases f with
  | zero => rfl
  | succ f =>
    cases f with
    | zero => rfl
    | succ g =>
      cases g with
      | zero => rfl
      | succ h =>
        show (match
            (match matchPlusGroup (h + 2) [['a'], []] 1 [] 1 [some ['a']]
                (fun rl rc c2 => k (1 + rl) rc c2) with
              | .done l _ => Res.withMore l (k 1 1 [some ['a']])
              | r => r) with
          | .done l _ => Res.withMore l (matchGroupOnce (h + 2) [[]] 1 ['a'] 1 [c0]
              (fun oneLen oneCtr caps2 =>
                match matchPlusGroup (h + 2) [['a'], []] 1 (List.drop oneLen ['a']) 1 caps2
                    (fun rl rc c2 => k (oneLen + rl) rc c2) with
                | .done l2 _ => Res.withMore l2 (k oneLen oneCtr caps2)
                | r2 => r2))
          | r => r) = .out
        rw [matchPlusGroup_empty_out (h + 2) (some ['a']) (fun rl rc c2 => k (1 + rl) rc c2)]

/-- `match_inner` on input `a` against `(a|)+` exhausts every fuel bound. -/
theorem matchInner_aplus_out (F : Nat) (k : Konsumer) :
    matchInner F ['a'] "(a|)+".toList 0 [none] k = .out := by
  cases F with
  | zero => rfl
  | succ F =>
    show matchPlusGroup F [['a'], []] 1 ['a'] 1 [none]
        (fun repsLen repsCtr caps2 =>
          matchInner F (List.drop repsLen ['a']) [] repsCtr caps2
            (fun rLen rCtr c2 => k (repsLen + rLen) rCtr c2)) = .out
    exact matchPlusGroup_a_out F none _

/-- C4 is a code bug: `has_match` does not terminate on the pattern `(a|)+`
(here with input `a`): the empty alternative yields a zero-width group match
and `match_plus_group` recurses on an unchanged input, so the Python source
exhausts the recursion limit (`RecursionError`) instead of returning a
verdict.  In the fuel model, every fuel bound returns `out`. -/
theorem spec_c4 : ∀ fuel : Nat, hasMatch fuel "a".toList "(a|)+".toList = .out := by
  intro fuel
  cases fuel with
  | zero => rfl
  | succ F =>
    show tryFrom (F + 1) "a".toList "(a|)+".toList 0 "a".toList.length [none] false = .out
    rw [tryFrom.eq_def]
    rw [show "a".toList = ['a'] from rfl]
    rw [show (if (false : Bool) = true then kAny 0 (['a'] : List Char).length else kFirst) =
        kFirst from rfl]
    rw [matchInner_aplus_out (F + 1) kFirst]

/-- Python read `caps[n - 1]` for `1 ≤ n` with `n - 1` in range is the plain
list lookup at index `n - 1`. -/
theorem pyGet_sub_one (l : Captures) (n : Nat) (h1 : 1 ≤ n)
    (h2 : n - 1 < l.length) :
    pyGet l ((n : Int) - 1) = l.get? (n - 1) := by
  simp only [pyGet]
  rw [if_neg (by omega : ¬((n : Int) - 1 < 0))]
  rw [if_pos (by constructor <;> omega)]
  congr 1
  omega

/-- C6: backreference semantics at the dispatch level.  For a pattern
`\d R` where `d` is a digit denoting slot `n ≥ 1` and `R` does not start
with a quantifier character: (1) if the capture table is shorter than `n`
the path fails silently; (2) if slot `n` is unset the path fails silently;
(3) if slot `n` holds text `s` and the input starts with `s`, the
enumeration is exactly the rest-pattern enumeration on the input after `s`
with every yielded length shifted by `len s`; (4) if the input does not
start with `s` the path fails silently. -/
theorem spec_c6 (f : Nat) (input R : List Char) (d : Char) (n ctr : Nat)
    (caps : Captures) (k : Konsumer)
    (hd : d.isDigit = true)
    (hn : n = d.toNat - '0'.toNat)
    (hn1 : 1 ≤ n)
    (hR : ∀ c, R.head? = some c → ¬(c = '+' ∨ c = '?' ∨ c = '*')) :
    (caps.length < n →
      matchInner (f + 1) input ('\\' :: d :: R) ctr caps k = .done [] caps) ∧
    (caps.get? (n - 1) = some none →
      matchInner (f + 1) input ('\\' :: d :: R) ctr caps k = .done [] caps) ∧
    (∀ s : List Char, caps.get? (n - 1) = some (some s) →
      s.isPrefixOf input = true →
      matchInner (f + 1) input ('\\' :: d :: R) ctr caps k =
        matchInner f (input.drop s.length) R ctr caps
          (fun rLen rCtr c2 => k (s.length + rLen) rCtr c2)) ∧
    (∀ s : List Char, caps.get? (n - 1) = some (some s) →
      s.isPrefixOf input = false →
      matchInner (f + 1) input ('\\' :: d :: R) ctr caps k = .done [] caps) := by
  have hpe : parseExpression ('\\' :: d :: R) = .ok (.backref n, 2) := by
    rw [parseExpression_not_paren _ (by simp)]
    simp only [parseSingleAtom]
    rw [if_pos hd, hn]
  have hred : matchInner (f + 1) input ('\\' :: d :: R) ctr caps k =
      (if caps.length < n then .done [] caps
       else
         match pyGet caps ((n : Int) - 1) with
         | none => .err .indexErr
         | some none => .done [] caps
         | some (some s) =>
           if s.isPrefixOf input then
             matchInner f (input.drop s.length) R ctr caps
               (fun rLen rCtr c2 => k (s.length + rLen) rCtr c2)
           else .done [] caps) := by
    rw [matchInner_eq]
    dsimp only
    rw [hpe]
    dsimp only
    simp only [show (List.drop 2 ('\\' :: d :: R)).head? = R.head? from rfl]
    cases R with
    | nil => rfl
    | cons r0 R2 =>
      have hval : (if r0 = '+' ∨ r0 = '?' ∨ r0 = '*' then some r0 else none) =
          (none : Option Char) := if_neg (hR r0 rfl)
      simp only [List.head?_cons, hval]
      rfl
  refine ⟨?_, ?_, ?_, ?_⟩
  · intro hlt
    rw [hred, if_pos hlt]
  · intro hget
    have hlen : n - 1 < caps.length := by
      by_contra hc
      rw [List.get?_eq_none.mpr (by omega)] at hget
      exact Option.noConfusion hget
    rw [hred, if_neg (by omega), pyGet_sub_one caps n hn1 hlen, hget]
  · intro s hget hpre
    have hlen : n - 1 < caps.length := by
      by_contra hc
      rw [List.get?_eq_none.mpr (by omega)] at hget
      exact Option.noConfusion hget
    rw [hred, if_neg (by omega), pyGet_sub_one caps n hn1 hlen, hget]
    exact if_pos hpre
  · intro s hget hpre
    have hlen : n - 1 < caps.length := by
      by_contra hc
      rw [List.get?_eq_none.mpr (by omega)] at hget
      exact Option.noConfusion hget
    rw [hred, if_neg (by omega), pyGet_sub_one caps n hn1 hlen, hget]
    exact if_neg (by simp [hpre])

/-- Witness for C6 at a concrete input: `\1` against `ab` with slot 1
holding `a` reduces to the empty rest-pattern on `b` with lengths shifted
by 1. -/
theorem spec_c6_witness :
    ('1' : Char).isDigit = true ∧
    matchInner 4 "ab".toList ['\\', '1'] 0 [some ['a']] kCol =
      matchInner 3 (List.drop (['a'] : List Char).length "ab".toList) [] 0
        [some ['a']]
        (fun rLen rCtr c2 => kCol ((['a'] : List Char).length + rLen) rCtr c2) :=
  ⟨by decide,
   (spec_c6 3 "ab".toList [] '1' 1 0 [some ['a']] kCol (by decide) (by decide)
     (by decide) (fun c h => by simp at h)).2.2.1 ['a'] rfl rfl⟩
